import Mathlib

/-!
Verification of the overcast-to-sqlite extraction pipeline.

The development shallowly embeds the three source files of the repository:

* `src/overcast.rs` — `OvercastClient::authenticate` (substring test on the
  login response body) and `OvercastClient::get_podcasts` (walk of the
  extended-OPML export tree into the `Feed`/`Episode` model);
* `src/sqlite.rs` — `create_tables` and `upsert_feeds` (INSERT OR REPLACE
  into the `feeds` and `episodes` tables).

Network transport, form encoding and the sqlite wire format are outside the
embedding: each modelled operation takes the data the corresponding Rust
function computes with (the response body text, the parsed XML tree, the
in-memory feed list) and returns the value or store state it produces.
-/

namespace Overcast

/-! ## Substring search

`authenticate` decides failure with Rust's `str::contains`; the model is a
character-level substring scan (for valid UTF-8 both sides, byte-level and
character-level substring containment agree). -/

/-- Does `needle` occur at the very front of `hay`? -/
def matchesAt : List Char → List Char → Bool
  | [], _ => true
  | _ :: _, [] => false
  | a :: as, b :: bs => a = b && matchesAt as bs

/-- Does `needle` occur anywhere in `hay`? -/
def containsSeq (needle : List Char) : List Char → Bool
  | [] => matchesAt needle []
  | b :: bs => matchesAt needle (b :: bs) || containsSeq needle bs

theorem matchesAt_iff (needle : List Char) :
    ∀ hay, matchesAt needle hay = true ↔ ∃ rest, hay = needle ++ rest := by
  induction needle with
  | nil => intro hay; simp [matchesAt]
  | cons a as ih =>
    intro hay
    cases hay with
    | nil =>
      simp only [matchesAt]
      constructor
      · intro h; cases h
      · rintro ⟨rest, h⟩; cases h
    | cons b bs =>
      simp only [matchesAt, Bool.and_eq_true, decide_eq_true_eq, ih]
      constructor
      · rintro ⟨rfl, rest, rfl⟩; exact ⟨rest, rfl⟩
      · rintro ⟨rest, h⟩
        injection h with h1 h2
        exact ⟨h1.symm, rest, h2⟩

theorem containsSeq_iff (needle : List Char) :
    ∀ hay, containsSeq needle hay = true ↔ ∃ p s, hay = p ++ needle ++ s := by
  intro hay
  induction hay with
  | nil =>
    simp only [containsSeq, matchesAt_iff]
    constructor
    · rintro ⟨rest, h⟩
      exact ⟨[], rest, by simpa using h⟩
    · rintro ⟨p, s, h⟩
      have h' := h.symm
      simp only [List.append_eq_nil] at h'
      obtain ⟨⟨hp, hn⟩, hs⟩ := h'
      exact ⟨[], by simp [hn]⟩
  | cons b bs ih =>
    simp only [containsSeq, Bool.or_eq_true, matchesAt_iff, ih]
    constructor
    · rintro (⟨rest, h⟩ | ⟨p, s, h⟩)
      · exact ⟨[], rest, by simpa using h⟩
      · exact ⟨b :: p, s, by simp [h]⟩
    · rintro ⟨p, s, h⟩
      cases p with
      | nil => exact Or.inl ⟨s, by simpa using h⟩
      | cons x xs =>
        injection h with h1 h2
        exact Or.inr ⟨xs, s, h2⟩

/-! ## Session client: `OvercastClient::authenticate`

The Rust function posts the login form and then inspects the response body:
if it contains the account-lookup failure phrase the function returns
`Err("unable to authenticate with Overcast")`, otherwise `Ok(())`. The model
takes the already-received body text and performs that decision. -/

/-- The literal failure phrase `authenticate` searches the login response
body for (`src/overcast.rs`, line 32). -/
def failurePhrase : String :=
  "Sorry, there was a problem looking up your Overcast account"

inductive AuthResult where
  | ok
  | invalidCredentials
deriving DecidableEq

/-- Model of `OvercastClient::authenticate` once the login response body has
been read: fail exactly when the body contains `failurePhrase`. -/
def authenticate (responseBody : String) : AuthResult :=
  if containsSeq failurePhrase.data responseBody.data then .invalidCredentials else .ok

end Overcast

namespace Overcast

/-! ## Timestamps: model of `chrono::DateTime::parse_from_rfc3339`

`get_podcasts` parses the `pubDate` / `userUpdatedDate` attributes with
`DateTime::parse_from_rfc3339(u).map(|d| d.naive_local()).ok()`. chrono's
`parse_from_rfc3339` accepts `YYYY-MM-DDTHH:MM:SS[.frac](Z|±HH:MM)` (with
`T`/`Z` also lowercase) and yields a `DateTime<FixedOffset>`; its
`naive_local()` is the wall-clock date-time exactly as written in the
string, the offset being kept separately and discarded by `naive_local`.
The model parses the same grammar into the written wall-clock fields plus
the offset in seconds. -/

/-- The wall-clock fields of a parsed timestamp (chrono's `NaiveDateTime`):
no time-zone or offset information is part of the value. -/
structure NaiveDateTime where
  year : Nat
  month : Nat
  day : Nat
  hour : Nat
  minute : Nat
  second : Nat
  nano : Nat
deriving DecidableEq

/-- Read exactly `n` ASCII digits off the front, most significant first. -/
def readDigitsAux : Nat → Nat → List Char → Option (Nat × List Char)
  | 0, acc, cs => some (acc, cs)
  | _ + 1, _, [] => none
  | n + 1, acc, c :: cs =>
    if c.isDigit then readDigitsAux n (acc * 10 + (c.toNat - 48)) cs else none

def readN (n : Nat) (cs : List Char) : Option (Nat × List Char) :=
  readDigitsAux n 0 cs

def expectChar (c : Char) : List Char → Option (List Char)
  | [] => none
  | x :: xs => if x = c then some xs else none

/-- Value in nanoseconds of a fractional-second digit string. -/
def nanoOfDigits (ds : List Char) : Nat :=
  (ds.take 9).foldl (fun a c => a * 10 + (c.toNat - 48)) 0 * 10 ^ (9 - min 9 ds.length)

/-- Offset suffix: `Z`/`z` or `±HH:MM`; result in seconds east of UTC. -/
def readOffset : List Char → Option (Int × List Char)
  | [] => none
  | c :: cs =>
    if c = 'Z' ∨ c = 'z' then some (0, cs)
    else if c = '+' ∨ c = '-' then do
      let (hh, cs) ← readN 2 cs
      let cs ← expectChar ':' cs
      let (mm, cs) ← readN 2 cs
      if hh ≤ 23 ∧ mm ≤ 59 then
        let magnitude : Int := (hh : Int) * 3600 + (mm : Int) * 60
        some (if c = '-' then -magnitude else magnitude, cs)
      else none
    else none

def isLeapYear (y : Nat) : Bool :=
  (y % 4 == 0) && ((y % 100 != 0) || (y % 400 == 0))

def daysInMonth (y m : Nat) : Nat :=
  if m = 2 then (if isLeapYear y then 29 else 28)
  else if m = 4 ∨ m = 6 ∨ m = 9 ∨ m = 11 then 30
  else 31

/-- Parse an RFC 3339 timestamp into its written wall-clock fields and its
offset in seconds. `none` on any syntax or range violation, as chrono's
parser errors there. -/
def rfc3339Parse (s : String) : Option (NaiveDateTime × Int) := do
  let cs := s.data
  let (y, cs) ← readN 4 cs
  let cs ← expectChar '-' cs
  let (mo, cs) ← readN 2 cs
  let cs ← expectChar '-' cs
  let (d, cs) ← readN 2 cs
  let cs ← (match cs with
    | c :: rest => if c = 'T' ∨ c = 't' then some rest else none
    | [] => none)
  let (h, cs) ← readN 2 cs
  let cs ← expectChar ':' cs
  let (mi, cs) ← readN 2 cs
  let cs ← expectChar ':' cs
  let (sec, cs) ← readN 2 cs
  let (nano, cs) ← (match cs with
    | '.' :: rest =>
      let ds := rest.takeWhile Char.isDigit
      if ds.isEmpty then none else some (nanoOfDigits ds, rest.dropWhile Char.isDigit)
    | _ => some (0, cs))
  let (off, cs) ← readOffset cs
  if cs = [] ∧ 1 ≤ mo ∧ mo ≤ 12 ∧ 1 ≤ d ∧ d ≤ daysInMonth y mo ∧
      h ≤ 23 ∧ mi ≤ 59 ∧ sec ≤ 59 then
    some (⟨y, mo, d, h, mi, sec, nano⟩, off)
  else
    none

/-- Days since 1970-01-01 of a civil date (standard civil-from-days
inverse). Used only to state instants for the time-zone claims. -/
def daysFromCivil (y : Int) (m d : Nat) : Int :=
  let y' : Int := if m ≤ 2 then y - 1 else y
  let era : Int := Int.fdiv y' 400
  let yoe : Int := y' - era * 400
  let mp : Int := if 2 < m then (m : Int) - 3 else (m : Int) + 9
  let doy : Int := (153 * mp + 2) / 5 + (d : Int) - 1
  let doe : Int := yoe * 365 + yoe / 4 - yoe / 100 + doy
  era * 146097 + doe - 719468

/-- Seconds since 1970-01-01T00:00:00 of a wall-clock value read as if it
were UTC: the instant a parsed timestamp denotes is `epochSecs dt - offset`. -/
def epochSecs (dt : NaiveDateTime) : Int :=
  daysFromCivil dt.year dt.month dt.day * 86400 +
    (dt.hour : Int) * 3600 + (dt.minute : Int) * 60 + (dt.second : Int)

/-! ## Integer parsing: model of Rust's `str::parse::<i64>` -/

def digitsToNat (ds : List Char) : Nat :=
  ds.foldl (fun a c => a * 10 + (c.toNat - 48)) 0

/-- Model of `"…".parse::<i64>()`: optional sign, one or more ASCII digits,
nothing else, and the value must fit in a 64-bit signed integer. -/
def parseI64 (s : String) : Option Int :=
  let (neg, ds) : Bool × List Char :=
    match s.data with
    | '+' :: r => (false, r)
    | '-' :: r => (true, r)
    | r => (false, r)
  if ds ≠ [] ∧ ds.all Char.isDigit = true then
    let v : Int := (if neg then -1 else 1) * (digitsToNat ds : Int)
    if -(2 ^ 63) ≤ v ∧ v < 2 ^ 63 then some v else none
  else
    none

end Overcast

namespace Overcast

/-! ## The export document tree

`get_podcasts` receives the export OPML text, parses it with `roxmltree`
and walks the node tree. The model starts from the parsed tree: a node has
a tag name, its attributes in document order, and its child nodes. (A
non-element child such as a text node carries no attributes, so in this
model it is a node whose attribute list is empty — the walk in the source
treats it exactly as an element without the required attributes.) -/

inductive Node where
  | mk (tag : String) (attrs : List (String × String)) (children : List Node)

def Node.tag : Node → String
  | .mk t _ _ => t

def Node.attrs : Node → List (String × String)
  | .mk _ a _ => a

def Node.children : Node → List Node
  | .mk _ _ c => c

/-- Model of roxmltree's `node.attribute(name)`: the value of the attribute
called `name`, if present (roxmltree rejects duplicate attribute names at
parse time, so taking the first match is exact). -/
def findAttr (n : Node) (name : String) : Option String :=
  (n.attrs.find? (fun kv => kv.1 = name)).map Prod.snd

mutual

/-- Model of roxmltree's `descendants()`: the node itself and all nodes
below it, in document (pre-)order. -/
def Node.allNodes : Node → List Node
  | .mk t a cs => .mk t a cs :: allNodesL cs

def allNodesL : List Node → List Node
  | [] => []
  | c :: cs => c.allNodes ++ allNodesL cs

end

theorem self_mem_allNodes (n : Node) : n ∈ n.allNodes := by
  cases n
  simp [Node.allNodes]

theorem mem_allNodesL_iff {m : Node} {cs : List Node} :
    m ∈ allNodesL cs ↔ ∃ c ∈ cs, m ∈ c.allNodes := by
  induction cs with
  | nil => simp [allNodesL]
  | cons c cs ih => simp [allNodesL, ih, or_and_right, exists_or]

/-- Everything below a node of the tree is below the tree's root: a child
of any node listed by `allNodes` is itself listed. -/
theorem child_mem_allNodes :
    ∀ c b x : Node, b ∈ c.allNodes → x ∈ b.children → x ∈ c.allNodes
  | .mk t a cs, b, x, hb, hx => by
    rw [Node.allNodes] at hb ⊢
    rcases List.mem_cons.mp hb with heq | hmem
    · subst heq
      exact List.mem_cons_of_mem _ (mem_allNodesL_iff.mpr ⟨x, hx, self_mem_allNodes x⟩)
    · obtain ⟨c', hc', hbc'⟩ := mem_allNodesL_iff.mp hmem
      have hx' : x ∈ c'.allNodes := child_mem_allNodes c' b x hbc' hx
      exact List.mem_cons_of_mem _ (mem_allNodesL_iff.mpr ⟨c', hc', hx'⟩)
termination_by c => sizeOf c
decreasing_by
  have h1 : sizeOf c' < sizeOf cs := List.sizeOf_lt_of_mem hc'
  simp only [Node.mk.sizeOf_spec]
  omega

/-! ## The feed/episode data model (`src/overcast.rs`, structs `Feed` and
`Episode`) -/

structure Episode where
  id : String
  title : String
  played : Bool
  published_at : Option NaiveDateTime
  updated_at : Option NaiveDateTime
  html_url : Option String
  overcast_url : Option String
  mp3_url : Option String
  user_deleted : Bool
  progress : Option Int
deriving DecidableEq

structure Feed where
  id : String
  title : String
  subscribed : Bool
  episodes : List Episode
  feed_url : Option String
  html_url : Option String
deriving DecidableEq

/-! ## Feed extractor: model of `OvercastClient::get_podcasts`

The function body after the HTTP fetch: parse the text, find the first
descendant `outline` node whose `text` attribute is `"feeds"` (an
`Iterator::find` followed by `.unwrap()`), then walk its children. -/

/-- The inner loop body of `get_podcasts`: an episode node is turned into an
`Episode` exactly when both its `title` and `overcastId` attributes are
present (the `if let [Some(title), Some(id)]` pattern); otherwise nothing is
emitted for it. -/
def parseEpisodeNode (n : Node) : Option Episode :=
  (findAttr n "title").bind fun title =>
    (findAttr n "overcastId").map fun id =>
      { id := id
        title := title
        played := decide (findAttr n "played" = some "1")
        published_at := (findAttr n "pubDate").bind fun u =>
          (rfc3339Parse u).map Prod.fst
        updated_at := (findAttr n "userUpdatedDate").bind fun u =>
          (rfc3339Parse u).map Prod.fst
        html_url := findAttr n "url"
        overcast_url := findAttr n "overcastUrl"
        mp3_url := findAttr n "enclosureUrl"
        user_deleted := decide (findAttr n "userDeleted" = some "1")
        progress := (findAttr n "progress").bind parseI64 }

/-- The outer loop body of `get_podcasts`: a feed node is turned into a
`Feed` exactly when both its `title` and `overcastId` attributes are present
(the `continue` on `title.is_none() || id.is_none()`); its episodes are the
surviving episode children, in document order. -/
def parseFeedNode (n : Node) : Option Feed :=
  (findAttr n "title").bind fun title =>
    (findAttr n "overcastId").map fun id =>
      { id := id
        title := title
        subscribed := decide (findAttr n "subscribed" = some "1")
        episodes := n.children.filterMap parseEpisodeNode
        feed_url := findAttr n "xmlUrl"
        html_url := findAttr n "htmlUrl" }

/-- Is this node the feed-list container `get_podcasts` searches for? -/
def isFeedsContainer (n : Node) : Bool :=
  n.tag = "outline" && findAttr n "text" = some "feeds"

inductive ExportErr where
  | noFeedsContainer
deriving DecidableEq

/-- Model of `get_podcasts` on the parsed export tree. The source locates
the container with `.find(…).unwrap()`: when no node matches, the `unwrap`
aborts the program (a panic, no value is ever produced); abortion is the
error case of `Except` here. With the container found, the result is the
list of feeds parsed from its children, in document order. -/
def parseExport (root : Node) : Except ExportErr (List Feed) :=
  match root.allNodes.find? isFeedsContainer with
  | none => .error .noFeedsContainer
  | some c => .ok (c.children.filterMap parseFeedNode)

end Overcast

namespace Overcast

/-! ## Store writer: model of `create_tables` and `upsert_feeds`

Both sqlite tables declare `id` as primary key, and every row is written
with `INSERT OR REPLACE`: a write replaces the row holding the same key, if
any, and inserts a fresh row otherwise. In a rowid table keyed by the `id`
column the table state is exactly the keyed collection of rows, so a table
is modelled as a list of rows where a replacing write overwrites in place
and a fresh write appends. -/

section Table

variable {α : Type}

/-- One `INSERT OR REPLACE` of row `r` into table `l`, rows keyed by
`key`: replace the row with `r`'s key, or append `r`. -/
def upsRow (key : α → String) : List α → α → List α
  | [], r => [r]
  | x :: xs, r => if key x = key r then r :: xs else x :: upsRow key xs r

/-- The keys of a table's rows, in row order. -/
def tkeys (key : α → String) (l : List α) : List String :=
  l.map key

theorem tkeys_nil (key : α → String) : tkeys key ([] : List α) = [] := rfl

theorem tkeys_cons (key : α → String) (x : α) (xs : List α) :
    tkeys key (x :: xs) = key x :: tkeys key xs := rfl

theorem upsRow_append_left (key : α → String) {r : α} {p : List α}
    (h : key r ∈ tkeys key p) (m : List α) :
    upsRow key (p ++ m) r = upsRow key p r ++ m := by
  induction p with
  | nil => simp [tkeys] at h
  | cons x xs ih =>
    by_cases hx : key x = key r
    · simp [upsRow, hx]
    · rw [tkeys_cons, List.mem_cons] at h
      have h' : key r ∈ tkeys key xs := h.resolve_left (fun he => hx he.symm)
      simp [upsRow, hx, ih h']

theorem upsRow_append_right (key : α → String) {r : α} {p : List α}
    (h : key r ∉ tkeys key p) (m : List α) :
    upsRow key (p ++ m) r = p ++ upsRow key m r := by
  induction p with
  | nil => simp
  | cons x xs ih =>
    rw [tkeys_cons, List.mem_cons] at h
    push_neg at h
    have hx : ¬ key x = key r := fun he => h.1 he.symm
    simp [upsRow, hx, ih h.2]

theorem upsRow_of_not_mem (key : α → String) {r : α} {l : List α}
    (h : key r ∉ tkeys key l) : upsRow key l r = l ++ [r] := by
  have := upsRow_append_right key h ([] : List α)
  simpa using this

theorem tkeys_upsRow_of_mem (key : α → String) {r : α} {l : List α}
    (h : key r ∈ tkeys key l) : tkeys key (upsRow key l r) = tkeys key l := by
  induction l with
  | nil => simp [tkeys] at h
  | cons x xs ih =>
    by_cases hx : key x = key r
    · simp [upsRow, hx, tkeys_cons]
    · rw [tkeys_cons, List.mem_cons] at h
      have h' : key r ∈ tkeys key xs := h.resolve_left (fun he => hx he.symm)
      simp [upsRow, hx, tkeys_cons, ih h']

theorem mem_tkeys_upsRow (key : α → String) {k : String} {l : List α} (r : α)
    (h : k ∈ tkeys key l) : k ∈ tkeys key (upsRow key l r) := by
  induction l with
  | nil => simp [tkeys] at h
  | cons x xs ih =>
    rw [tkeys_cons, List.mem_cons] at h
    by_cases hx : key x = key r
    · rcases h with h | h
      · simp [upsRow, hx, tkeys_cons, h ▸ hx]
      · simp [upsRow, hx, tkeys_cons, Or.inr h]
    · rcases h with h | h
      · simp [upsRow, hx, tkeys_cons, Or.inl h]
      · simp [upsRow, hx, tkeys_cons, Or.inr (ih h)]

theorem self_mem_tkeys_upsRow (key : α → String) (l : List α) (r : α) :
    key r ∈ tkeys key (upsRow key l r) := by
  induction l with
  | nil => simp [upsRow, tkeys]
  | cons x xs ih =>
    by_cases hx : key x = key r
    · simp [upsRow, hx, tkeys_cons]
    · simp [upsRow, hx, tkeys_cons, Or.inr ih]

theorem mem_tkeys_foldl (key : α → String) {k : String} {t : List α}
    (h : k ∈ tkeys key t) (rs : List α) :
    k ∈ tkeys key (List.foldl (upsRow key) t rs) := by
  induction rs generalizing t with
  | nil => simpa using h
  | cons r rs ih => exact ih (mem_tkeys_upsRow key r h)

theorem batch_mem_tkeys_foldl (key : α → String) (t : List α) (rs : List α) :
    ∀ y ∈ rs, key y ∈ tkeys key (List.foldl (upsRow key) t rs) := by
  induction rs generalizing t with
  | nil => simp
  | cons r rs ih =>
    intro y hy
    rcases List.mem_cons.mp hy with rfl | hy'
    · exact mem_tkeys_foldl key (self_mem_tkeys_upsRow key t y) rs
    · exact ih (upsRow key t r) y hy'

theorem exists_first_split (key : α → String) {k : String} {l : List α}
    (h : k ∈ tkeys key l) :
    ∃ p a s, l = p ++ a :: s ∧ key a = k ∧ k ∉ tkeys key p := by
  induction l with
  | nil => simp [tkeys] at h
  | cons x xs ih =>
    by_cases hx : key x = k
    · exact ⟨[], x, xs, rfl, hx, by simp [tkeys]⟩
    · rw [tkeys_cons, List.mem_cons] at h
      have h' : k ∈ tkeys key xs := h.resolve_left (fun he => hx he.symm)
      obtain ⟨p, a, s, hl, ha, hp⟩ := ih h'
      refine ⟨x :: p, a, s, by simp [hl], ha, ?_⟩
      rw [tkeys_cons, List.mem_cons]
      push_neg
      exact ⟨fun he => hx he.symm, hp⟩

/-- Two table states that agree everywhere except possibly in the row at
key `k`, sitting at the first `k`-position of both. -/
def DiffAt (key : α → String) (k : String) (t₁ t₂ : List α) : Prop :=
  t₁ = t₂ ∨ ∃ p a b s, key a = k ∧ key b = k ∧ k ∉ tkeys key p ∧
    t₁ = p ++ a :: s ∧ t₂ = p ++ b :: s

theorem DiffAt_upsRow (key : α → String) {k : String} {t₁ t₂ : List α}
    (h : DiffAt key k t₁ t₂) (y : α) :
    DiffAt key k (upsRow key t₁ y) (upsRow key t₂ y) := by
  rcases h with rfl | ⟨p, a, b, s, ha, hb, hp, h1, h2⟩
  · exact Or.inl rfl
  · subst h1; subst h2
    by_cases hyk : key y = k
    · have hyp : key y ∉ tkeys key p := hyk ▸ hp
      rw [upsRow_append_right key hyp, upsRow_append_right key hyp]
      have hay : key a = key y := by rw [ha, hyk]
      have hby : key b = key y := by rw [hb, hyk]
      rw [show upsRow key (a :: s) y = y :: s by simp [upsRow, hay],
        show upsRow key (b :: s) y = y :: s by simp [upsRow, hby]]
      exact Or.inl rfl
    · by_cases hyp : key y ∈ tkeys key p
      · rw [upsRow_append_left key hyp, upsRow_append_left key hyp]
        exact Or.inr ⟨upsRow key p y, a, b, s, ha, hb,
          (tkeys_upsRow_of_mem key hyp).symm ▸ hp, rfl, rfl⟩
      · rw [upsRow_append_right key hyp, upsRow_append_right key hyp]
        have hay : ¬ key a = key y := fun he => hyk (he ▸ ha)
        have hby : ¬ key b = key y := fun he => hyk (he ▸ hb)
        rw [show upsRow key (a :: s) y = a :: upsRow key s y by simp [upsRow, hay],
          show upsRow key (b :: s) y = b :: upsRow key s y by simp [upsRow, hby]]
        exact Or.inr ⟨p, a, b, upsRow key s y, ha, hb, hp, rfl, rfl⟩

theorem DiffAt_foldl (key : α → String) {k : String} {t₁ t₂ : List α}
    (h : DiffAt key k t₁ t₂) (ys : List α) :
    DiffAt key k (List.foldl (upsRow key) t₁ ys) (List.foldl (upsRow key) t₂ ys) := by
  induction ys generalizing t₁ t₂ with
  | nil => simpa using h
  | cons y ys ih => exact ih (DiffAt_upsRow key h y)

theorem upsRow_eq_of_DiffAt (key : α → String) {k : String} {t₁ t₂ : List α} {y : α}
    (h : DiffAt key k t₁ t₂) (hy : key y = k) :
    upsRow key t₁ y = upsRow key t₂ y := by
  rcases h with rfl | ⟨p, a, b, s, ha, hb, hp, h1, h2⟩
  · rfl
  · subst h1; subst h2
    have hyp : key y ∉ tkeys key p := hy ▸ hp
    rw [upsRow_append_right key hyp, upsRow_append_right key hyp]
    have hay : key a = key y := by rw [ha, hy]
    have hby : key b = key y := by rw [hb, hy]
    rw [show upsRow key (a :: s) y = y :: s by simp [upsRow, hay],
      show upsRow key (b :: s) y = y :: s by simp [upsRow, hby]]

theorem DiffAt_upsRow_self (key : α → String) {t : List α} {x : α}
    (h : key x ∈ tkeys key t) : DiffAt key (key x) t (upsRow key t x) := by
  obtain ⟨p, a, s, hl, ha, hp⟩ := exists_first_split key h
  subst hl
  have hxp : key x ∉ tkeys key p := hp
  rw [upsRow_append_right key hxp]
  have hax : key a = key x := ha
  rw [show upsRow key (a :: s) x = x :: s by simp [upsRow, hax]]
  exact Or.inr ⟨p, a, x, s, ha, rfl, hp, rfl, rfl⟩

theorem foldl_upsRow_append_new (key : α → String) {t : List α} {ys : List α}
    (h : ∀ y ∈ ys, key y ∈ tkeys key t) (x : α) :
    List.foldl (upsRow key) (t ++ [x]) ys = List.foldl (upsRow key) t ys ++ [x] := by
  induction ys generalizing t with
  | nil => simp
  | cons y ys ih =>
    have hy : key y ∈ tkeys key t := h y (List.mem_cons_self y ys)
    rw [List.foldl_cons, List.foldl_cons, upsRow_append_left key hy]
    exact ih (fun y' hy' => (tkeys_upsRow_of_mem key hy).symm ▸ h y' (List.mem_cons_of_mem y hy'))

/-- Replaying the same batch of insert-or-replace writes is the identity on
the resulting table. -/
theorem foldl_upsRow_idem (key : α → String) (rs : List α) :
    ∀ t : List α, List.foldl (upsRow key)
      (List.foldl (upsRow key) t rs) rs = List.foldl (upsRow key) t rs := by
  induction rs using List.reverseRecOn with
  | nil => intro t; rfl
  | append_singleton ys x ih =>
    intro t
    simp only [List.foldl_append, List.foldl_cons, List.foldl_nil]
    by_cases hx : key x ∈ tkeys key (List.foldl (upsRow key) t ys)
    · have hd : DiffAt key (key x) (List.foldl (upsRow key) t ys)
          (upsRow key (List.foldl (upsRow key) t ys) x) :=
        DiffAt_upsRow_self key hx
      have hd' := DiffAt_foldl key hd ys
      rw [ih t] at hd'
      exact (upsRow_eq_of_DiffAt key hd' rfl).symm
    · rw [upsRow_of_not_mem key hx,
        foldl_upsRow_append_new key (batch_mem_tkeys_foldl key t ys) x, ih t,
        upsRow_append_right key hx]
      simp [upsRow]

end Table

end Overcast

namespace Overcast

/-! ## Lookup and membership facts about insert-or-replace tables -/

section TableLookup

variable {α : Type}

/-- The stored row at key `k`, if any (a keyed lookup; `upsRow` touches at
most the first occurrence of a key, which this reads back). -/
def lookupRow (key : α → String) : List α → String → Option α
  | [], _ => none
  | x :: xs, k => if key x = k then some x else lookupRow key xs k

/-- First-some choice between two optional values. -/
def firstSome : Option α → Option α → Option α
  | some a, _ => some a
  | none, b => b

/-- The last row of a write batch carrying key `k`, if any. -/
def lastWrite (key : α → String) : List α → String → Option α
  | [], _ => none
  | r :: rs, k => firstSome (lastWrite key rs k) (if key r = k then some r else none)

theorem firstSome_assoc (a b c : Option α) :
    firstSome (firstSome a b) c = firstSome a (firstSome b c) := by
  cases a <;> cases b <;> simp [firstSome]

theorem lastWrite_append_single (key : α → String) (ys : List α) (x : α) (k : String) :
    lastWrite key (ys ++ [x]) k =
      firstSome (if key x = k then some x else none) (lastWrite key ys k) := by
  induction ys with
  | nil => by_cases hx : key x = k <;> simp [lastWrite, firstSome, hx]
  | cons y ys ih =>
    rw [List.cons_append, lastWrite, ih, lastWrite, firstSome_assoc]

theorem lookupRow_upsRow (key : α → String) (l : List α) (r : α) (k : String) :
    lookupRow key (upsRow key l r) k =
      if key r = k then some r else lookupRow key l k := by
  induction l with
  | nil => by_cases h : key r = k <;> simp [upsRow, lookupRow, h]
  | cons x xs ih =>
    by_cases hx : key x = key r
    · rw [show upsRow key (x :: xs) r = r :: xs from by simp [upsRow, hx]]
      by_cases h : key r = k
      · simp [lookupRow, h]
      · have hxk : ¬ key x = k := fun he => h (hx.symm.trans he)
        simp [lookupRow, h, hxk]
    · rw [show upsRow key (x :: xs) r = x :: upsRow key xs r from by simp [upsRow, hx]]
      by_cases hxk : key x = k
      · have h : ¬ key r = k := fun he => hx (hxk.trans he.symm)
        simp [lookupRow, hxk, h]
      · simp [lookupRow, hxk, ih]

theorem lookupRow_foldl (key : α → String) (rs : List α) :
    ∀ (t : List α) (k : String), lookupRow key (List.foldl (upsRow key) t rs) k =
      firstSome (lastWrite key rs k) (lookupRow key t k) := by
  induction rs using List.reverseRecOn with
  | nil => intro t k; simp [lastWrite, firstSome]
  | append_singleton ys x ih =>
    intro t k
    simp only [List.foldl_append, List.foldl_cons, List.foldl_nil]
    rw [lookupRow_upsRow, lastWrite_append_single, ih]
    by_cases hx : key x = k <;> simp [firstSome, hx]

theorem mem_upsRow (key : α → String) {l : List α} {r x : α}
    (h : x ∈ upsRow key l r) : x ∈ l ∨ x = r := by
  induction l with
  | nil => simpa [upsRow] using h
  | cons a as ih =>
    by_cases ha : key a = key r
    · rw [upsRow, if_pos ha] at h
      rcases List.mem_cons.mp h with rfl | h'
      · exact Or.inr rfl
      · exact Or.inl (List.mem_cons_of_mem a h')
    · rw [upsRow, if_neg ha] at h
      rcases List.mem_cons.mp h with rfl | h'
      · exact Or.inl (List.mem_cons_self x as)
      · rcases ih h' with h'' | h''
        · exact Or.inl (List.mem_cons_of_mem a h'')
        · exact Or.inr h''

theorem mem_foldl_upsRow (key : α → String) {rs : List α} {x : α} :
    ∀ {t : List α}, x ∈ List.foldl (upsRow key) t rs → x ∈ t ∨ x ∈ rs := by
  induction rs with
  | nil => intro t h; exact Or.inl h
  | cons r rs ih =>
    intro t h
    rcases ih (by simpa using h) with h' | h'
    · rcases mem_upsRow key h' with h'' | h''
      · exact Or.inl h''
      · exact Or.inr (h'' ▸ List.mem_cons_self r rs)
    · exact Or.inr (List.mem_cons_of_mem r h')

end TableLookup

/-! ## The two tables (`create_tables`) and the upsert (`upsert_feeds`)

Rows carry the column values bound in `upsert_feeds`: for a feed,
`(id, title, subscribed, feedUrl, htmlUrl)`; for an episode,
`(id, title, played, feedId, publishedAt, updatedAt, htmlUrl, overcastUrl,
mp3Url, progress, userDeleted)`, `feedId` being the owning feed's id. -/

structure FeedRow where
  id : String
  title : String
  subscribed : Bool
  feedUrl : Option String
  htmlUrl : Option String
deriving DecidableEq

structure EpisodeRow where
  id : String
  title : String
  played : Bool
  feedId : String
  publishedAt : Option NaiveDateTime
  updatedAt : Option NaiveDateTime
  htmlUrl : Option String
  overcastUrl : Option String
  mp3Url : Option String
  progress : Option Int
  userDeleted : Bool
deriving DecidableEq

/-- The relational store: the `feeds` and `episodes` tables. -/
structure Store where
  feeds : List FeedRow
  episodes : List EpisodeRow
deriving DecidableEq

/-- The columns `upsert_feeds` binds for a feed row. -/
def feedRow (f : Feed) : FeedRow :=
  ⟨f.id, f.title, f.subscribed, f.feed_url, f.html_url⟩

/-- The columns `upsert_feeds` binds for an episode row; `feedId` is the
owning feed's id. -/
def episodeRow (feedId : String) (e : Episode) : EpisodeRow :=
  ⟨e.id, e.title, e.played, feedId, e.published_at, e.updated_at,
    e.html_url, e.overcast_url, e.mp3_url, e.progress, e.user_deleted⟩

/-- The body of `upsert_feeds`'s outer loop: write the feed row, then every
one of its episode rows, in order. -/
def upsertFeedStep (s : Store) (f : Feed) : Store :=
  { feeds := upsRow FeedRow.id s.feeds (feedRow f)
    episodes := List.foldl (upsRow EpisodeRow.id) s.episodes
      (f.episodes.map (episodeRow f.id)) }

/-- Model of `upsert_feeds`: for each feed in order, `INSERT OR REPLACE`
its row into `feeds`, then each of its episodes' rows into `episodes`. -/
def upsert_feeds (s : Store) (fs : List Feed) : Store :=
  fs.foldl upsertFeedStep s

/-- Model of `create_tables` (`CREATE TABLE IF NOT EXISTS …`): on an
existing store it changes nothing; a fresh store starts with both tables
empty (`Store.empty`). -/
def create_tables (s : Store) : Store := s

def Store.empty : Store := ⟨[], []⟩

/-- The episode rows a batch writes, in write order. -/
def episodeRows (fs : List Feed) : List EpisodeRow :=
  fs.flatMap (fun f => f.episodes.map (episodeRow f.id))

/-- `upsert_feeds` acts on the two tables independently: the `feeds` table
folds over the feed rows, the `episodes` table over all episode rows, both
in write order. -/
theorem upsert_feeds_eq (fs : List Feed) : ∀ s : Store,
    upsert_feeds s fs =
      ⟨List.foldl (upsRow FeedRow.id) s.feeds (fs.map feedRow),
        List.foldl (upsRow EpisodeRow.id) s.episodes (episodeRows fs)⟩ := by
  induction fs with
  | nil => intro s; simp [upsert_feeds, episodeRows]
  | cons f fs ih =>
    intro s
    rw [show upsert_feeds s (f :: fs) = upsert_feeds (upsertFeedStep s f) fs from rfl,
      ih (upsertFeedStep s f)]
    simp [upsertFeedStep, episodeRows, List.foldl_append]

end Overcast

namespace Overcast

/-! ## Inversion of the node parsers -/

/-- A node parsed into a Feed had both required attributes present, and
every field of the Feed is the value `get_podcasts` computes for it. -/
theorem parseFeedNode_some {n : Node} {f : Feed} (h : parseFeedNode n = some f) :
    findAttr n "title" = some f.title ∧ findAttr n "overcastId" = some f.id ∧
    f.subscribed = decide (findAttr n "subscribed" = some "1") ∧
    f.episodes = n.children.filterMap parseEpisodeNode ∧
    f.feed_url = findAttr n "xmlUrl" ∧ f.html_url = findAttr n "htmlUrl" := by
  cases hT : findAttr n "title" with
  | none => rw [parseFeedNode, hT] at h; cases h
  | some t =>
    cases hI : findAttr n "overcastId" with
    | none => rw [parseFeedNode, hT, hI] at h; cases h
    | some i =>
      rw [parseFeedNode, hT, hI] at h
      obtain rfl := Option.some.inj h
      exact ⟨rfl, rfl, rfl, rfl, rfl, rfl⟩

/-- A node parsed into an Episode had both required attributes present, and
every field of the Episode is the value `get_podcasts` computes for it. -/
theorem parseEpisodeNode_some {n : Node} {e : Episode} (h : parseEpisodeNode n = some e) :
    findAttr n "title" = some e.title ∧ findAttr n "overcastId" = some e.id ∧
    e.played = decide (findAttr n "played" = some "1") ∧
    e.published_at = (findAttr n "pubDate").bind (fun u => (rfc3339Parse u).map Prod.fst) ∧
    e.updated_at = (findAttr n "userUpdatedDate").bind (fun u => (rfc3339Parse u).map Prod.fst) ∧
    e.html_url = findAttr n "url" ∧ e.overcast_url = findAttr n "overcastUrl" ∧
    e.mp3_url = findAttr n "enclosureUrl" ∧
    e.user_deleted = decide (findAttr n "userDeleted" = some "1") ∧
    e.progress = (findAttr n "progress").bind parseI64 := by
  cases hT : findAttr n "title" with
  | none => rw [parseEpisodeNode, hT] at h; cases h
  | some t =>
    cases hI : findAttr n "overcastId" with
    | none => rw [parseEpisodeNode, hT, hI] at h; cases h
    | some i =>
      rw [parseEpisodeNode, hT, hI] at h
      obtain rfl := Option.some.inj h
      exact ⟨rfl, rfl, rfl, rfl, rfl, rfl, rfl, rfl, rfl, rfl⟩

/-- An attribute value read by `findAttr` is one of the node's attributes. -/
theorem findAttr_mem {n : Node} {name v : String} (h : findAttr n name = some v) :
    (name, v) ∈ n.attrs := by
  rw [findAttr] at h
  cases hf : n.attrs.find? (fun kv => kv.1 = name) with
  | none => rw [hf] at h; cases h
  | some kv =>
    rw [hf] at h
    obtain ⟨k1, v1⟩ := kv
    have hmem := List.mem_of_find?_eq_some hf
    have hp := List.find?_some hf
    simp only [decide_eq_true_eq] at hp
    obtain rfl := Option.some.inj h
    rw [← hp] at *
    exact hmem

end Overcast

namespace Overcast

/-! ## The claims -/

/-- C9: `authenticate` fails with the invalid-credentials error exactly when
the login response body contains the account-lookup failure phrase as a
substring; for any other body (the transport itself having succeeded) it
returns success. -/
theorem authenticate_failure_iff (body : String) :
    (authenticate body = .invalidCredentials ↔
      ∃ p s, body.data = p ++ failurePhrase.data ++ s) ∧
    ((¬ ∃ p s, body.data = p ++ failurePhrase.data ++ s) → authenticate body = .ok) := by
  cases hc : containsSeq failurePhrase.data body.data with
  | true =>
    have hex := (containsSeq_iff failurePhrase.data body.data).mp hc
    exact ⟨⟨fun _ => hex, fun _ => by rw [authenticate, if_pos hc]⟩,
      fun hne => absurd hex hne⟩
  | false =>
    have hok : authenticate body = .ok := by
      rw [authenticate, if_neg (by rw [hc]; exact Bool.false_ne_true)]
    refine ⟨⟨fun hf => absurd hf (by rw [hok]; intro h; cases h), fun hex => ?_⟩,
      fun _ => hok⟩
    rw [(containsSeq_iff failurePhrase.data body.data).mpr hex] at hc
    cases hc

def authFailBody : String :=
  "resp: Sorry, there was a problem looking up your Overcast account!"

theorem authenticate_failure_iff_witness :
    authenticate authFailBody = .invalidCredentials ∧ authenticate "hello" = .ok := by
  refine ⟨(authenticate_failure_iff authFailBody).1.mpr
      ⟨"resp: ".data, "!".data, rfl⟩,
    (authenticate_failure_iff "hello").2 ?_⟩
  rintro ⟨p, s, hps⟩
  exact absurd ((containsSeq_iff failurePhrase.data "hello".data).mpr ⟨p, s, hps⟩)
    (by decide)

/-- C5: on an export tree containing no outline node whose text attribute
equals "feeds", the parse fails fatally and unconditionally — the source
reaches `.find(…).unwrap()` with an empty search result and aborts, the
error outcome of the model — rather than skipping or returning an empty
feed list. -/
theorem missing_container_fatal (root : Node)
    (h : ∀ m ∈ root.allNodes, isFeedsContainer m = false) :
    parseExport root = .error .noFeedsContainer ∧ ∀ fs, parseExport root ≠ .ok fs := by
  have hf : root.allNodes.find? isFeedsContainer = none :=
    List.find?_eq_none.mpr (fun x hx => by rw [h x hx]; exact Bool.false_ne_true)
  refine ⟨by rw [parseExport, hf], fun fs hok => ?_⟩
  rw [parseExport, hf] at hok
  cases hok

def noContainerDoc : Node :=
  .mk "opml" [] [.mk "body" [] [.mk "outline" [("text", "playlists")] []]]

theorem missing_container_fatal_witness :
    (∀ m ∈ noContainerDoc.allNodes, isFeedsContainer m = false) ∧
    parseExport noContainerDoc = .error .noFeedsContainer :=
  ⟨by decide, (missing_container_fatal noContainerDoc (by decide)).1⟩

/-- C2: a node missing its title attribute or its overcastId attribute is
parsed to nothing (no Feed, no Episode, no error), and dropping it from any
sibling list leaves the parsed output unchanged — its siblings are all
still processed, and nothing below it (its episode children included) can
reach the result. -/
theorem missing_attr_skips_node (n : Node)
    (h : findAttr n "title" = none ∨ findAttr n "overcastId" = none) :
    parseFeedNode n = none ∧ parseEpisodeNode n = none ∧
    (∀ pre post : List Node, (pre ++ n :: post).filterMap parseFeedNode =
      (pre ++ post).filterMap parseFeedNode) ∧
    (∀ pre post : List Node, (pre ++ n :: post).filterMap parseEpisodeNode =
      (pre ++ post).filterMap parseEpisodeNode) := by
  have hfeed : parseFeedNode n = none := by
    rcases h with h | h
    · rw [parseFeedNode, h]; rfl
    · cases ht : findAttr n "title" with
      | none => rw [parseFeedNode, ht]; rfl
      | some t => rw [parseFeedNode, ht, h]; rfl
  have hep : parseEpisodeNode n = none := by
    rcases h with h | h
    · rw [parseEpisodeNode, h]; rfl
    · cases ht : findAttr n "title" with
      | none => rw [parseEpisodeNode, ht]; rfl
      | some t => rw [parseEpisodeNode, ht, h]; rfl
  refine ⟨hfeed, hep, fun pre post => ?_, fun pre post => ?_⟩
  · simp [List.filterMap_append, List.filterMap_cons, hfeed]
  · simp [List.filterMap_append, List.filterMap_cons, hep]

def noIdNode : Node :=
  .mk "outline" [("title", "only a title")]
    [.mk "outline" [("title", "child"), ("overcastId", "7")] []]

def goodNode : Node :=
  .mk "outline" [("title", "g"), ("overcastId", "3")] []

theorem missing_attr_skips_node_witness :
    parseFeedNode noIdNode = none ∧ parseEpisodeNode noIdNode = none ∧
    List.filterMap parseFeedNode [goodNode, noIdNode] =
      List.filterMap parseFeedNode [goodNode] := by
  obtain ⟨h1, h2, h3, _⟩ := missing_attr_skips_node noIdNode (Or.inr (by decide))
  exact ⟨h1, h2, by simpa using h3 [goodNode] []⟩

/-- C3: the three boolean fields come from literal comparison with
`Some("1")`: a parsed feed is `subscribed` iff its `subscribed` attribute
value is exactly the string `"1"`, and a parsed episode is `played` /
`user_deleted` iff the `played` / `userDeleted` attribute value is exactly
`"1"`; any other value, `"0"`, `"true"` or absence included, gives false. -/
theorem flag_true_iff_attr_one (n m : Node) (f : Feed) (e : Episode)
    (hf : parseFeedNode n = some f) (he : parseEpisodeNode m = some e) :
    (f.subscribed = true ↔ findAttr n "subscribed" = some "1") ∧
    (e.played = true ↔ findAttr m "played" = some "1") ∧
    (e.user_deleted = true ↔ findAttr m "userDeleted" = some "1") := by
  obtain ⟨_, _, hsub, _, _, _⟩ := parseFeedNode_some hf
  obtain ⟨_, _, hplay, _, _, _, _, _, hdel, _⟩ := parseEpisodeNode_some he
  rw [hsub, hplay, hdel]
  exact ⟨decide_eq_true_iff, decide_eq_true_iff, decide_eq_true_iff⟩

def subNode : Node :=
  .mk "outline" [("title", "t"), ("overcastId", "1"), ("subscribed", "1")] []

def playNode : Node :=
  .mk "outline"
    [("title", "e"), ("overcastId", "2"), ("played", "0"), ("userDeleted", "1")] []

def subFeed : Feed := ⟨"1", "t", true, [], none, none⟩

def playEp : Episode := ⟨"2", "e", false, none, none, none, none, none, true, none⟩

theorem flag_true_iff_attr_one_witness :
    subFeed.subscribed = true ∧ playEp.played ≠ true ∧ playEp.user_deleted = true := by
  obtain ⟨h1, h2, h3⟩ :=
    flag_true_iff_attr_one subNode playNode subFeed playEp (by decide) (by decide)
  exact ⟨h1.mpr (by decide), fun hp => absurd (h2.mp hp) (by decide), h3.mpr (by decide)⟩

/-- C4: for an emitted episode, an absent or unparsable `pubDate` /
`userUpdatedDate` attribute makes `published_at` / `updated_at` the absent
option, and an absent or unparsable `progress` attribute makes `progress`
the absent option — never a zero, empty or epoch default, and never an
error. -/
theorem absent_unparsable_yields_none (n : Node) (e : Episode)
    (he : parseEpisodeNode n = some e) :
    (findAttr n "pubDate" = none → e.published_at = none) ∧
    (∀ u, findAttr n "pubDate" = some u → rfc3339Parse u = none →
      e.published_at = none) ∧
    (findAttr n "userUpdatedDate" = none → e.updated_at = none) ∧
    (∀ u, findAttr n "userUpdatedDate" = some u → rfc3339Parse u = none →
      e.updated_at = none) ∧
    (findAttr n "progress" = none → e.progress = none) ∧
    (∀ u, findAttr n "progress" = some u → parseI64 u = none →
      e.progress = none) := by
  obtain ⟨_, _, _, hpub, hupd, _, _, _, _, hprog⟩ := parseEpisodeNode_some he
  refine ⟨fun h => by rw [hpub, h]; rfl,
    fun u hu hp => by rw [hpub, hu]; simp [hp],
    fun h => by rw [hupd, h]; rfl,
    fun u hu hp => by rw [hupd, hu]; simp [hp],
    fun h => by rw [hprog, h]; rfl,
    fun u hu hp => by rw [hprog, hu]; simp [hp]⟩

def badDatesNode : Node :=
  .mk "outline"
    [("title", "x"), ("overcastId", "9"), ("pubDate", "yesterday"),
      ("userUpdatedDate", "2021-06-01"), ("progress", "12.5")] []

def badDatesEp : Episode := ⟨"9", "x", false, none, none, none, none, none, false, none⟩

theorem absent_unparsable_yields_none_witness :
    badDatesEp.published_at = none ∧ badDatesEp.updated_at = none ∧
      badDatesEp.progress = none := by
  obtain ⟨_, h2, _, h4, _, h6⟩ :=
    absent_unparsable_yields_none badDatesNode badDatesEp (by decide)
  exact ⟨h2 "yesterday" (by decide) (by decide),
    h4 "2021-06-01" (by decide) (by decide),
    h6 "12.5" (by decide) (by decide)⟩

/-- C10: a valid RFC 3339 `pubDate` or `userUpdatedDate` attribute with an
offset is stored (as `published_at` / `updated_at` respectively) as the
naive wall-clock value written in the string, the offset discarded without
normalizing to UTC (chrono's `naive_local()`): for either field, two
attribute values that denote the same instant under different offsets parse
to different stored values, and the stored value (a `NaiveDateTime`)
carries no time-zone information. -/
theorem published_updated_naive_local (n1 n2 : Node) (e1 e2 : Episode)
    (h1 : parseEpisodeNode n1 = some e1) (h2 : parseEpisodeNode n2 = some e2) :
    (∀ s1 s2 dt1 dt2 o1 o2,
      findAttr n1 "pubDate" = some s1 → findAttr n2 "pubDate" = some s2 →
      rfc3339Parse s1 = some (dt1, o1) → rfc3339Parse s2 = some (dt2, o2) →
      e1.published_at = some dt1 ∧ e2.published_at = some dt2 ∧
        (epochSecs dt1 - o1 = epochSecs dt2 - o2 → dt1.nano = dt2.nano → o1 ≠ o2 →
          e1.published_at ≠ e2.published_at)) ∧
    (∀ s1 s2 dt1 dt2 o1 o2,
      findAttr n1 "userUpdatedDate" = some s1 → findAttr n2 "userUpdatedDate" = some s2 →
      rfc3339Parse s1 = some (dt1, o1) → rfc3339Parse s2 = some (dt2, o2) →
      e1.updated_at = some dt1 ∧ e2.updated_at = some dt2 ∧
        (epochSecs dt1 - o1 = epochSecs dt2 - o2 → dt1.nano = dt2.nano → o1 ≠ o2 →
          e1.updated_at ≠ e2.updated_at)) := by
  obtain ⟨_, _, _, hpub1, hupd1, _⟩ := parseEpisodeNode_some h1
  obtain ⟨_, _, _, hpub2, hupd2, _⟩ := parseEpisodeNode_some h2
  constructor
  · intro s1 s2 dt1 dt2 o1 o2 ha1 ha2 hp1 hp2
    have he1 : e1.published_at = some dt1 := by rw [hpub1, ha1]; simp [hp1]
    have he2 : e2.published_at = some dt2 := by rw [hpub2, ha2]; simp [hp2]
    refine ⟨he1, he2, fun hinstant hnano hoff => ?_⟩
    rw [he1, he2]
    intro hcon
    obtain rfl := Option.some.inj hcon
    exact hoff (by omega)
  · intro s1 s2 dt1 dt2 o1 o2 ha1 ha2 hp1 hp2
    have he1 : e1.updated_at = some dt1 := by rw [hupd1, ha1]; simp [hp1]
    have he2 : e2.updated_at = some dt2 := by rw [hupd2, ha2]; simp [hp2]
    refine ⟨he1, he2, fun hinstant hnano hoff => ?_⟩
    rw [he1, he2]
    intro hcon
    obtain rfl := Option.some.inj hcon
    exact hoff (by omega)

def tzNode1 : Node :=
  .mk "outline"
    [("title", "a"), ("overcastId", "1"), ("pubDate", "2021-06-01T12:00:00+02:00"),
      ("userUpdatedDate", "2021-07-05T03:30:00-04:00")] []

def tzNode2 : Node :=
  .mk "outline"
    [("title", "a"), ("overcastId", "1"), ("pubDate", "2021-06-01T10:00:00Z"),
      ("userUpdatedDate", "2021-07-05T07:30:00Z")] []

def tzEp1 : Episode :=
  ⟨"1", "a", false, some ⟨2021, 6, 1, 12, 0, 0, 0⟩, some ⟨2021, 7, 5, 3, 30, 0, 0⟩,
    none, none, none, false, none⟩

def tzEp2 : Episode :=
  ⟨"1", "a", false, some ⟨2021, 6, 1, 10, 0, 0, 0⟩, some ⟨2021, 7, 5, 7, 30, 0, 0⟩,
    none, none, none, false, none⟩

theorem published_updated_naive_local_witness :
    (tzEp1.published_at = some ⟨2021, 6, 1, 12, 0, 0, 0⟩ ∧
      tzEp2.published_at = some ⟨2021, 6, 1, 10, 0, 0, 0⟩ ∧
      tzEp1.published_at ≠ tzEp2.published_at) ∧
    (tzEp1.updated_at = some ⟨2021, 7, 5, 3, 30, 0, 0⟩ ∧
      tzEp2.updated_at = some ⟨2021, 7, 5, 7, 30, 0, 0⟩ ∧
      tzEp1.updated_at ≠ tzEp2.updated_at) := by
  obtain ⟨hp, hu⟩ :=
    published_updated_naive_local tzNode1 tzNode2 tzEp1 tzEp2 (by decide) (by decide)
  obtain ⟨hp1, hp2, hpne⟩ := hp "2021-06-01T12:00:00+02:00" "2021-06-01T10:00:00Z"
    ⟨2021, 6, 1, 12, 0, 0, 0⟩ ⟨2021, 6, 1, 10, 0, 0, 0⟩ 7200 0
    (by decide) (by decide) (by decide) (by decide)
  obtain ⟨hu1, hu2, hune⟩ := hu "2021-07-05T03:30:00-04:00" "2021-07-05T07:30:00Z"
    ⟨2021, 7, 5, 3, 30, 0, 0⟩ ⟨2021, 7, 5, 7, 30, 0, 0⟩ (-14400) 0
    (by decide) (by decide) (by decide) (by decide)
  exact ⟨⟨hp1, hp2, hpne (by decide) (by decide) (by decide)⟩,
    ⟨hu1, hu2, hune (by decide) (by decide) (by decide)⟩⟩

end Overcast

namespace Overcast

/-- An export tree that parses successfully although a feed carries an
empty (but present) `title` attribute: the source checks only attribute
presence (`is_none`), never emptiness. -/
def emptyTitleDoc : Node :=
  .mk "opml" []
    [.mk "body" []
      [.mk "outline" [("text", "feeds")]
        [.mk "outline" [("title", ""), ("overcastId", "1")] []]]]

def emptyTitleFeed : Feed := ⟨"1", "", false, [], none, none⟩

/-- C1 counterexample: the parse of `emptyTitleDoc` succeeds, yet its one
emitted Feed has an empty title — so it is not true that every Feed of a
successfully parsed export has a non-empty id and title. -/
theorem nonempty_fields_counterexample :
    ¬ (∀ fs, parseExport emptyTitleDoc = .ok fs → ∀ f ∈ fs,
      f.id ≠ "" ∧ f.title ≠ "" ∧ ∀ e ∈ f.episodes, e.id ≠ "" ∧ e.title ≠ "") := by
  intro h
  have hres : parseExport emptyTitleDoc = .ok [emptyTitleFeed] := by rfl
  have hprop := h [emptyTitleFeed] hres emptyTitleFeed (by decide)
  exact hprop.2.1 rfl

/-- C1 amended: the parser guarantees the id and title of every emitted
Feed and Episode to be the values of attributes present on the source node
— presence, not non-emptiness, is what is checked. Hence for every export
document whose parse succeeds and in which every `title` and `overcastId`
attribute value is non-empty, every emitted Feed and every Episode inside
any emitted Feed has a non-empty id and a non-empty title. -/
theorem nonempty_attrs_nonempty_fields (root : Node) (fs : List Feed)
    (hok : parseExport root = .ok fs)
    (hattr : ∀ m ∈ root.allNodes, ∀ kv ∈ m.attrs,
      kv.1 = "title" ∨ kv.1 = "overcastId" → kv.2 ≠ "") :
    ∀ f ∈ fs, f.id ≠ "" ∧ f.title ≠ "" ∧
      ∀ e ∈ f.episodes, e.id ≠ "" ∧ e.title ≠ "" := by
  rw [parseExport] at hok
  cases hc : root.allNodes.find? isFeedsContainer with
  | none => rw [hc] at hok; cases hok
  | some c =>
    rw [hc] at hok
    have hcm : c ∈ root.allNodes := List.mem_of_find?_eq_some hc
    obtain rfl := Except.ok.inj hok
    intro f hf
    obtain ⟨nf, hnf, hpf⟩ := List.mem_filterMap.mp hf
    have hnfm : nf ∈ root.allNodes := child_mem_allNodes root c nf hcm hnf
    obtain ⟨hT, hI, _, hEps, _, _⟩ := parseFeedNode_some hpf
    refine ⟨hattr nf hnfm _ (findAttr_mem hI) (Or.inr rfl),
      hattr nf hnfm _ (findAttr_mem hT) (Or.inl rfl), ?_⟩
    intro e he
    rw [hEps] at he
    obtain ⟨ne, hne, hpe⟩ := List.mem_filterMap.mp he
    have hnem : ne ∈ root.allNodes := child_mem_allNodes root nf ne hnfm hne
    obtain ⟨hT2, hI2, _⟩ := parseEpisodeNode_some hpe
    exact ⟨hattr ne hnem _ (findAttr_mem hI2) (Or.inr rfl),
      hattr ne hnem _ (findAttr_mem hT2) (Or.inl rfl)⟩

/-- A small export tree whose attributes are all non-empty. -/
def wellFormedDoc : Node :=
  .mk "opml" []
    [.mk "body" []
      [.mk "outline" [("text", "feeds")]
        [.mk "outline" [("title", "My Show"), ("overcastId", "100"), ("subscribed", "1")]
          [.mk "outline" [("title", "Ep1"), ("overcastId", "5001"), ("played", "1")] []]]]]

def wellFormedFeed : Feed :=
  ⟨"100", "My Show", true,
    [⟨"5001", "Ep1", true, none, none, none, none, none, false, none⟩], none, none⟩

theorem nonempty_attrs_nonempty_fields_witness :
    parseExport wellFormedDoc = .ok [wellFormedFeed] ∧
    wellFormedFeed.id ≠ "" ∧ wellFormedFeed.title ≠ "" := by
  have hok : parseExport wellFormedDoc = .ok [wellFormedFeed] := by rfl
  have h := nonempty_attrs_nonempty_fields wellFormedDoc [wellFormedFeed] hok
    (by decide) wellFormedFeed (by decide)
  exact ⟨hok, h.1, h.2.1⟩

/-- C6: running `upsert_feeds` twice with the same feed list leaves both
tables of the store in exactly the state one run produces, from any
starting store state. -/
theorem upsert_feeds_idempotent (s : Store) (fs : List Feed) :
    upsert_feeds (upsert_feeds s fs) fs = upsert_feeds s fs := by
  rw [upsert_feeds_eq fs s, upsert_feeds_eq fs]
  dsimp only
  rw [foldl_upsRow_idem FeedRow.id (fs.map feedRow) s.feeds,
    foldl_upsRow_idem EpisodeRow.id (episodeRows fs) s.episodes]

/-- C7: upsert is last-write-wins by primary key, replacing rows in full:
after `upsert_feeds`, the feeds row stored under a key is the complete row
of the last feed in the batch with that id — falling back to the prior
stored row when the batch never writes the key — and likewise for episode
rows under episode ids, over the batch's episode writes in order. -/
theorem upsert_last_write_wins (s : Store) (fs : List Feed) (k : String) :
    lookupRow FeedRow.id (upsert_feeds s fs).feeds k =
      firstSome (lastWrite FeedRow.id (fs.map feedRow) k)
        (lookupRow FeedRow.id s.feeds k) ∧
    lookupRow EpisodeRow.id (upsert_feeds s fs).episodes k =
      firstSome (lastWrite EpisodeRow.id (episodeRows fs) k)
        (lookupRow EpisodeRow.id s.episodes k) := by
  rw [upsert_feeds_eq fs s]
  exact ⟨lookupRow_foldl FeedRow.id (fs.map feedRow) s.feeds k,
    lookupRow_foldl EpisodeRow.id (episodeRows fs) s.episodes k⟩

/-! ## Sequences of store operations (for the orphan-freedom claim) -/

inductive StoreOp where
  | ensureSchema
  | upsert (fs : List Feed)

def applyOp (s : Store) : StoreOp → Store
  | .ensureSchema => create_tables s
  | .upsert fs => upsert_feeds s fs

/-- Run a sequence of schema/upsert operations on an initially empty store. -/
def runOps (ops : List StoreOp) : Store :=
  ops.foldl applyOp Store.empty

/-- Every episode row's `feedId` is the id of some stored feed row. -/
def NoOrphans (s : Store) : Prop :=
  ∀ e ∈ s.episodes, e.feedId ∈ tkeys FeedRow.id s.feeds

theorem noOrphans_upsertFeedStep {s : Store} (h : NoOrphans s) (f : Feed) :
    NoOrphans (upsertFeedStep s f) := by
  intro e he
  rcases mem_foldl_upsRow EpisodeRow.id he with h1 | h1
  · exact mem_tkeys_upsRow FeedRow.id (feedRow f) (h e h1)
  · obtain ⟨ep, hep, heq⟩ := List.mem_map.mp h1
    have hfid : e.feedId = f.id := by rw [← heq]; rfl
    rw [hfid]
    exact self_mem_tkeys_upsRow FeedRow.id s.feeds (feedRow f)

theorem noOrphans_upsert_feeds {s : Store} (h : NoOrphans s) (fs : List Feed) :
    NoOrphans (upsert_feeds s fs) := by
  induction fs generalizing s with
  | nil => exact h
  | cons f fs ih => exact ih (noOrphans_upsertFeedStep h f)

theorem noOrphans_runOps (ops : List StoreOp) : NoOrphans (runOps ops) := by
  have hstep : ∀ s, NoOrphans s → NoOrphans (ops.foldl applyOp s) := by
    induction ops with
    | nil => exact fun s h => h
    | cons op ops ih =>
      intro s h
      refine ih (applyOp s op) ?_
      cases op with
      | ensureSchema => exact h
      | upsert fs => exact noOrphans_upsert_feeds h fs
  exact hstep Store.empty (fun e he => absurd he (by simp [Store.empty]))

/-- C8: after any sequence of `create_tables` and `upsert_feeds` operations
on an initially empty store, every row of the episodes table has a `feedId`
equal to the id of some row of the feeds table — no orphan episodes; each
feed row is written before any of its episode rows, and rows are never
deleted. -/
theorem no_orphan_episodes (ops : List StoreOp) (e : EpisodeRow)
    (he : e ∈ (runOps ops).episodes) :
    e.feedId ∈ (runOps ops).feeds.map FeedRow.id :=
  noOrphans_runOps ops e he

def sampleOps : List StoreOp :=
  [.ensureSchema, .upsert [wellFormedFeed]]

def sampleEpisodeRow : EpisodeRow :=
  ⟨"5001", "Ep1", true, "100", none, none, none, none, none, none, false⟩

theorem no_orphan_episodes_witness :
    sampleEpisodeRow ∈ (runOps sampleOps).episodes ∧
    sampleEpisodeRow.feedId ∈ (runOps sampleOps).feeds.map FeedRow.id :=
  ⟨by decide, no_orphan_episodes sampleOps sampleEpisodeRow (by decide)⟩

end Overcast
